import Mathlib

/-!
Shallow embedding of the tech-trend-radar core (src/core/matcher.py and
src/core/db.py) and proofs of the spec's claims about it.

Strings are modelled as `List Char`. Python's `str.lower` and the
`re.IGNORECASE` flag are modelled with Lean's ASCII `Char.toLower`; every
literal in the repository's catalog and disambiguation table is ASCII, so
the two agree on all inputs the claims mention.
-/

namespace TrendRadar

/-- Models the regex character class `[A-Za-z0-9]` used by the lookaround
assertions in `matcher.py` (`_build_topic_index`). -/
def isAlnumA (c : Char) : Bool :=
  (('A' ≤ c && c ≤ 'Z') || ('a' ≤ c && c ≤ 'z') || ('0' ≤ c && c ≤ '9'))

/-- A lookaround position is acceptable when there is no character there
(start/end of the text) or the character is not `[A-Za-z0-9]`. -/
def boundaryOk : Option Char → Bool
  | none => true
  | some c => !isAlnumA c

/-- The compiled regex `(?<![A-Za-z0-9])LIT(?![A-Za-z0-9])` matching at the
head of `text` (left lookbehind handled by the caller): the literal's
characters match case-insensitively, and the character right after the
literal, if any, is not alphanumeric. -/
def litHere : List Char → List Char → Bool
  | [], text => boundaryOk text.head?
  | _ :: _, [] => false
  | p :: ps, c :: cs => (Char.toLower c == p) && litHere ps cs

/-- `re.search` of the compiled pattern: try the match at every position of
`text`; `prev` is the character just before the current position (for the
lookbehind), `none` at the start of the text. -/
def searchAux (lit : List Char) : Option Char → List Char → Bool
  | prev, [] => boundaryOk prev && litHere lit []
  | prev, c :: cs => (boundaryOk prev && litHere lit (c :: cs)) || searchAux lit (some c) cs

/-- Models `compiled_regex.search(content)` for the pattern compiled from
the (lower-case) literal `lit` in `_build_topic_index`. -/
def regexSearch (lit text : List Char) : Bool :=
  searchAux lit none text

/-- The character standing just before a match position when the text
before it is `p` and the character before `p` (if any) is `prev`: the last
character of `p`, or `prev` when `p` is empty. Used to state what
`searchAux` recognizes. -/
def lastOr (prev : Option Char) : List Char → Option Char
  | [] => prev
  | c :: p => lastOr (some c) p

/-- One entry of `self.topic_patterns` as built by `_build_topic_index`
(the `compiled_regex` field is represented by `pattern` itself, via
`regexSearch`). -/
structure CompiledPattern where
  pattern : List Char
  topic : List Char
  category : List Char
  is_exact_topic : Bool
  length : Nat
deriving DecidableEq

/-- A record of the topic catalog (`{topic, aliases, category}`), the input
of `_build_topic_index`. -/
structure TopicDef where
  topic : List Char
  aliases : List (List Char)
  category : List Char
deriving DecidableEq

/-- The hard-coded `ANTI_NOISE_RULES` table of `TopicMatcher`. -/
def ANTI_NOISE_RULES : List (List Char × List (List Char)) :=
  [ ("rust".toList, ["rustlang".toList]),
    ("go".toList, ["golang".toList]),
    ("bun".toList, ["bunjs".toList]),
    ("ray".toList, ["ray.io".toList]),
    ("spark".toList, ["apache spark".toList, "pyspark".toList]),
    ("kafka".toList, ["apache kafka".toList, "kafka streams".toList]) ]

/-- The patterns `_build_topic_index` emits for one topic record: the
anti-noise literals (all non-exact) when the lower-cased topic is a key of
`ANTI_NOISE_RULES`, otherwise the bare topic (exact) followed by its
aliases (non-exact). -/
def compileTopic (t : TopicDef) : List CompiledPattern :=
  let topic := t.topic.map Char.toLower
  let aliases := t.aliases.map (fun a => a.map Char.toLower)
  match ANTI_NOISE_RULES.lookup topic with
  | some pats =>
      pats.map (fun p => ⟨p, topic, t.category, false, p.length⟩)
  | none =>
      ⟨topic, topic, t.category, true, topic.length⟩ ::
        aliases.map (fun a => ⟨a, topic, t.category, false, a.length⟩)

/-- Models `_build_topic_index`: `self.topic_patterns`, in catalog order. -/
def build_topic_index (topics : List TopicDef) : List CompiledPattern :=
  topics.flatMap compileTopic

/-- The sort key `(x['is_exact_topic'], x['length'])` of `find_best_match`. -/
def patKey (p : CompiledPattern) : Bool × Nat :=
  (p.is_exact_topic, p.length)

/-- Python's `<` on `(bool, int)` pairs: lexicographic, with `False < True`. -/
def keyLt (a b : Bool × Nat) : Bool :=
  (!a.1 && b.1) || (a.1 == b.1 && decide (a.2 < b.2))

/-- Python's `max(cur :: rest, key=...)`: walk the list keeping the current
maximum, replacing it only on a strictly greater key, so the first element
achieving the maximal key wins. -/
def pickMax (cur : CompiledPattern) : List CompiledPattern → CompiledPattern
  | [] => cur
  | x :: xs => pickMax (if keyLt (patKey cur) (patKey x) then x else cur) xs

/-- The search corpus `f"{title} {text}".lower()` of `find_best_match`. -/
def corpus (title text : List Char) : List Char :=
  (title ++ ' ' :: text).map Char.toLower

/-- The `matches` list of `find_best_match`: every compiled pattern whose
regex matches somewhere in the corpus, in compile order. -/
def matchedPatterns (patterns : List CompiledPattern) (title text : List Char) :
    List CompiledPattern :=
  patterns.filter (fun p => regexSearch p.pattern (corpus title text))

/-- Models `TopicMatcher.find_best_match` over an explicit pattern list
(the instance state `self.topic_patterns`). -/
def find_best_match (patterns : List CompiledPattern) (title text : List Char) :
    Option (List Char × List Char) :=
  if title = [] then none
  else
    match matchedPatterns patterns title text with
    | [] => none
    | m :: ms =>
        let best := pickMax m ms
        some (best.topic, best.category)

/-! ### URL validation (`validate_url` and its use of `urllib.parse.urlparse`)

The scheme/netloc part of CPython's `urllib.parse.urlsplit` is modelled
below: the first `:` splits off a scheme when the text before it is a
letter followed by scheme characters; a netloc is present exactly when the
remainder starts with `//` and extends to the next `/`, `?` or `#`; a
netloc with an unpaired `[` or `]` raises `ValueError` (modelled as
`none`), which `validate_url` catches and turns into `False`. Control
character stripping and bracketed-host validation are not modelled; no
input in the claims contains them. -/

/-- CPython's `scheme_chars`: ASCII letters, digits, and `+`, `-`, `.`. -/
def isSchemeChar (c : Char) : Bool :=
  c.isAlpha || c.isDigit || c == '+' || c == '-' || c == '.'

/-- Split a list at its first `:`; `none` when there is no colon. -/
def splitColon : List Char → Option (List Char × List Char)
  | [] => none
  | c :: cs =>
      if c == ':' then some ([], cs)
      else (splitColon cs).map (fun pr => (c :: pr.1, pr.2))

/-- The scheme-recognition step of `urlsplit`: `(scheme, rest)`, with the
scheme lower-cased, or `([], url)` when no scheme is recognized. -/
def splitScheme (url : List Char) : List Char × List Char :=
  match splitColon url with
  | some (bef, aft) =>
      if bef ≠ [] ∧ bef.head?.all Char.isAlpha ∧ bef.all isSchemeChar then
        (bef.map Char.toLower, aft)
      else ([], url)
  | none => ([], url)

/-- A netloc character: anything up to the first `/`, `?` or `#`. -/
def isNetlocChar (c : Char) : Bool :=
  !(c == '/' || c == '?' || c == '#')

/-- The `(scheme, netloc)` components `urlparse` yields, or `none` when
`urlsplit` raises `ValueError` on an unpaired IPv6 bracket. -/
def urlparseSchemeNetloc (url : List Char) : Option (List Char × List Char) :=
  let sr := splitScheme url
  if sr.2.take 2 = ['/', '/'] then
    let netloc := (sr.2.drop 2).takeWhile isNetlocChar
    if (netloc.contains '[' && !netloc.contains ']')
        || (netloc.contains ']' && !netloc.contains '[') then
      none
    else some (sr.1, netloc)
  else some (sr.1, [])

/-- Models `TopicMatcher.validate_url`: `parsed.scheme in ('http','https')
and parsed.netloc`, with the `except` branch returning `False`. -/
def validate_url (url : List Char) : Bool :=
  match urlparseSchemeNetloc url with
  | none => false
  | some (scheme, netloc) =>
      (scheme == "http".toList || scheme == "https".toList) && !netloc.isEmpty

/-! ### Topic Rotation Selector (`get_topics_for_run`) -/

/-- The one input `get_topics_for_run` reads beside its arguments and the
catalog: `datetime.now().timetuple().tm_yday`. -/
structure Env where
  dayOfYear : Nat
deriving DecidableEq

/-- One step of the grouping loop of `get_topics_for_run`: append the topic
to its category's group, keeping first-appearance order of categories
(Python dict insertion order). -/
def addToGroups : List (List Char × List TopicDef) → TopicDef →
    List (List Char × List TopicDef)
  | [], t => [(t.category, [t])]
  | (c, ts) :: rest, t =>
      if c = t.category then (c, ts ++ [t]) :: rest
      else (c, ts) :: addToGroups rest t

/-- The `categories` dict of `get_topics_for_run` as an association list in
insertion order. -/
def groupByCategory (topics : List TopicDef) : List (List Char × List TopicDef) :=
  topics.foldl addToGroups []

/-- The selection loop of `get_topics_for_run`: `i` is the `enumerate`
index, `per` and `rem` are `topics_per_category` and `remaining`; each
category's list is internally rotated by `(rot + day) % len` and the first
`per + extra` topics of the rotated list are taken. -/
def walkCats (per rem rot day : Nat) : Nat → List (List Char × List TopicDef) → List TopicDef
  | _, [] => []
  | i, (_, ts) :: rest =>
      let off := (rot + day) % ts.length
      let rts := ts.drop off ++ ts.take off
      let extra := if i < rem then 1 else 0
      rts.take (per + extra) ++ walkCats per rem rot day (i + 1) rest

/-- Models `TopicMatcher.get_topics_for_run` with the catalog and the
day-of-year passed explicitly. -/
def get_topics_for_run (topics : List TopicDef) (max_topics rot : Nat) (env : Env) :
    List TopicDef :=
  if topics.length ≤ max_topics then topics
  else
    let groups := groupByCategory topics
    let start := rot % groups.length
    let rotated := groups.drop start ++ groups.take start
    (walkCats (max_topics / groups.length) (max_topics % groups.length)
      rot env.dayOfYear 0 rotated).take max_topics

/-! ### JSON well-formedness (`json.loads` as used by `_validate_event`)

`_validate_event` only asks whether `json.loads(metrics_json)` succeeds, so
the model below is a recognizer for CPython's default `json.loads` grammar:
RFC 8259 values plus the `NaN`, `Infinity` and `-Infinity` constants,
strict strings (no raw control characters). Recursion is fueled by the
input length: every nested value sits after at least one delimiter
character, so the fuel never runs out on a real input. -/

/-- JSON whitespace, as in `json.decoder.WHITESPACE`. -/
def isJsonWs (c : Char) : Bool :=
  c == ' ' || c == '\t' || c == '\n' || c == '\r'

def skipWs (cs : List Char) : List Char :=
  cs.dropWhile isJsonWs

/-- Consume the exact characters of `lit`, else fail. -/
def stripLit : List Char → List Char → Option (List Char)
  | [], cs => some cs
  | _ :: _, [] => none
  | l :: ls, c :: cs => if c == l then stripLit ls cs else none

def isHexDigitA (c : Char) : Bool :=
  c.isDigit || ('a' ≤ c && c ≤ 'f') || ('A' ≤ c && c ≤ 'F')

/-- The body of a JSON string after its opening quote, strict mode:
escapes are the eight single-character ones and `\uXXXX`; raw control
characters (code < 0x20) are rejected. Yields what follows the closing
quote. -/
def jsonStringRest : List Char → Option (List Char)
  | [] => none
  | '"' :: r => some r
  | '\\' :: e :: r =>
      if e == '"' || e == '\\' || e == '/' || e == 'b' || e == 'f'
          || e == 'n' || e == 'r' || e == 't' then
        jsonStringRest r
      else if e == 'u' then
        match r with
        | a :: b :: c :: d :: r2 =>
            if isHexDigitA a && isHexDigitA b && isHexDigitA c && isHexDigitA d then
              jsonStringRest r2
            else none
        | _ => none
      else none
  | '\\' :: [] => none
  | c :: r => if c.toNat < 32 then none else jsonStringRest r

/-- The integer part `0|[1-9][0-9]*` of `json`'s `NUMBER_RE`. -/
def jsonInt : List Char → Option (List Char)
  | [] => none
  | '0' :: r => some r
  | c :: r => if c.isDigit then some (r.dropWhile Char.isDigit) else none

/-- The optional `(\.[0-9]+)?([eE][-+]?[0-9]+)?` tail of `NUMBER_RE`; like
the regex, an incomplete fraction or exponent is simply not consumed. -/
def jsonFracExp (cs : List Char) : List Char :=
  let cs1 :=
    match cs with
    | '.' :: r => if r.head?.any Char.isDigit then r.dropWhile Char.isDigit else cs
    | _ => cs
  match cs1 with
  | e :: r =>
      if e == 'e' || e == 'E' then
        let r1 :=
          match r with
          | s :: r2 => if s == '+' || s == '-' then r2 else r
          | [] => r
        if r1.head?.any Char.isDigit then r1.dropWhile Char.isDigit else cs1
      else cs1
  | [] => cs1

/-- A JSON number (an optional minus sign, then `NUMBER_RE`'s body). -/
def jsonNumber (cs : List Char) : Option (List Char) :=
  let body := match cs with | '-' :: r => r | _ => cs
  (jsonInt body).map jsonFracExp

mutual

/-- One JSON value starting at the head of the input (whitespace already
skipped); yields what follows it. -/
def jsonValue : Nat → List Char → Option (List Char)
  | 0, _ => none
  | Nat.succ fuel, cs =>
      match cs with
      | '{' :: r => jsonObjFirst fuel (skipWs r)
      | '[' :: r => jsonArrFirst fuel (skipWs r)
      | '"' :: r => jsonStringRest r
      | 't' :: r => stripLit "rue".toList r
      | 'f' :: r => stripLit "alse".toList r
      | 'n' :: r => stripLit "ull".toList r
      | 'N' :: r => stripLit "aN".toList r
      | 'I' :: r => stripLit "nfinity".toList r
      | '-' :: 'I' :: r => stripLit "nfinity".toList r
      | _ => jsonNumber cs

/-- After `{` and whitespace: an empty object or the first member. -/
def jsonObjFirst : Nat → List Char → Option (List Char)
  | 0, _ => none
  | Nat.succ fuel, cs =>
      match cs with
      | '}' :: r => some r
      | '"' :: r => do
          let r1 ← jsonStringRest r
          match skipWs r1 with
          | ':' :: r2 => do
              let r3 ← jsonValue fuel (skipWs r2)
              jsonObjMore fuel (skipWs r3)
          | _ => none
      | _ => none

/-- After one object member: `}` ends the object, `,` starts another. -/
def jsonObjMore : Nat → List Char → Option (List Char)
  | 0, _ => none
  | Nat.succ fuel, cs =>
      match cs with
      | '}' :: r => some r
      | ',' :: r =>
          match skipWs r with
          | '"' :: r1 => do
              let r2 ← jsonStringRest r1
              match skipWs r2 with
              | ':' :: r3 => do
                  let r4 ← jsonValue fuel (skipWs r3)
                  jsonObjMore fuel (skipWs r4)
              | _ => none
          | _ => none
      | _ => none

/-- After `[` and whitespace: an empty array or the first element. -/
def jsonArrFirst : Nat → List Char → Option (List Char)
  | 0, _ => none
  | Nat.succ fuel, cs =>
      match cs with
      | ']' :: r => some r
      | _ => do
          let r1 ← jsonValue fuel cs
          jsonArrMore fuel (skipWs r1)

/-- After one array element: `]` ends the array, `,` starts another. -/
def jsonArrMore : Nat → List Char → Option (List Char)
  | 0, _ => none
  | Nat.succ fuel, cs =>
      match cs with
      | ']' :: r => some r
      | ',' :: r => do
          let r1 ← jsonValue fuel (skipWs r)
          jsonArrMore fuel (skipWs r1)
      | _ => none

end

/-- Models `json.loads(s)` succeeding: one value, surrounded only by
whitespace (`"Extra data"` otherwise). -/
def jsonValid (s : List Char) : Bool :=
  match jsonValue (s.length + 1) (skipWs s) with
  | some rest => skipWs rest = []
  | none => false

/-! ### The event store (`src/core/db.py`)

The store is modelled by the list of rows of `raw_events` in insertion
order; the `UNIQUE` index on `url` is what `INSERT OR IGNORE` consults.
A `sqlite3` error on the insert statement itself (the `except` branches)
is an input of the model, passed as an explicit flag. -/

/-- A `RawEvent` record (db.py's `TypedDict`). -/
structure RawEvent where
  ts : List Char
  src : List Char
  url : List Char
  title : Option (List Char)
  text : Option (List Char)
  topic_guess : List Char
  metrics_json : List Char
deriving DecidableEq

/-- Models `TrendRadarDB._validate_event` succeeding (it raises on the
first failed check, caught by both callers): `ts` ends with `Z`, `src` is
one of the four sources, `url` starts with `http://` or `https://`,
`topic_guess` is non-empty, and `metrics_json` parses as JSON. -/
def validate_event (ev : RawEvent) : Bool :=
  (ev.ts.getLast? == some 'Z')
    && (ev.src == "github".toList || ev.src == "hn".toList
        || ev.src == "reddit".toList || ev.src == "ph".toList)
    && ("http://".toList.isPrefixOf ev.url || "https://".toList.isPrefixOf ev.url)
    && !ev.topic_guess.isEmpty
    && jsonValid ev.metrics_json

/-- Whether a row with this `url` exists: the `UNIQUE` index `idx_raw_url`. -/
def urlExists (rows : List RawEvent) (url : List Char) : Bool :=
  rows.any (fun r => r.url == url)

/-- Models `TrendRadarDB.insert_event`: validate, then `INSERT OR IGNORE`
(whose `rowcount` is 0 on a duplicate `url`); any exception — a validation
error or a database error (`dbError`) — is caught and yields `False`.
Returns the flag and the resulting table. -/
def insert_event (dbError : Bool) (ev : RawEvent) (rows : List RawEvent) :
    Bool × List RawEvent :=
  if validate_event ev then
    if dbError then (false, rows)
    else if urlExists rows ev.url then (false, rows)
    else (true, rows ++ [ev])
  else (false, rows)

/-- The `executemany` of `insert_events_bulk`: insert the validated events
in order with `INSERT OR IGNORE`, counting the rows actually inserted (the
cursor's `rowcount`). -/
def bulkExec : List RawEvent → List RawEvent → List RawEvent × Nat
  | [], rows => (rows, 0)
  | ev :: evs, rows =>
      if urlExists rows ev.url then bulkExec evs rows
      else
        let res := bulkExec evs (rows ++ [ev])
        (res.1, res.2 + 1)

/-- Models `TrendRadarDB.insert_events_bulk`: validation up front counts
`failed`; an empty validated list returns early; a transaction error
(`txError`) rolls everything back and counts all validated events as
failed; otherwise `inserted` is the `rowcount` and
`duplicates = len(validated) - inserted`. Returns the resulting table and
the `(inserted, duplicates, failed)` counts. -/
def insert_events_bulk (txError : Bool) (events : List RawEvent)
    (rows : List RawEvent) : List RawEvent × Nat × Nat × Nat :=
  if events = [] then (rows, 0, 0, 0)
  else
    let validated := events.filter validate_event
    let failed := events.length - validated.length
    if validated = [] then (rows, 0, 0, failed)
    else if txError then (rows, 0, 0, failed + validated.length)
    else
      let res := bulkExec validated rows
      (res.1, res.2, validated.length - res.2, failed)

/-! ### Concrete catalogs and events used by witnesses and counterexamples -/

/-- The catalog of the spec's disambiguation test: the single topic
`rust`. -/
def rustCatalog : List TopicDef :=
  [⟨"rust".toList, [], "lang".toList⟩]

/-- A catalog holding only the topic `go` (whose only compiled literal is
`golang`). -/
def goCatalog : List TopicDef :=
  [⟨"go".toList, [], "lang".toList⟩]

/-- A catalog with an exact topic (`vue`) and a longer alias of a different
topic (`react native framework` for `react`). -/
def exactCatalog : List TopicDef :=
  [⟨"react".toList, ["react native framework".toList], "fe".toList⟩,
   ⟨"vue".toList, [], "fe".toList⟩]

/-- A numbered topic in the given category. -/
def mkTopic (n : Nat) (c : List Char) : TopicDef :=
  ⟨(toString n).toList, [], c⟩

/-- Ten topics split 1 / 9 over two categories: category `a` cannot fill
its per-category quota when the budget is 6. -/
def unbalancedCatalog : List TopicDef :=
  mkTopic 0 "a".toList :: (List.range 9).map (fun i => mkTopic (i + 1) "b".toList)

/-- Ten topics split 5 / 5 over two categories. -/
def balancedCatalog : List TopicDef :=
  (List.range 5).map (fun i => mkTopic i "a".toList)
    ++ (List.range 5).map (fun i => mkTopic (i + 5) "b".toList)

/-- Three topics in one category. -/
def smallCatalog : List TopicDef :=
  (List.range 3).map (fun i => mkTopic i "a".toList)

/-! ## Theorems -/

/-! ### The tie-break order of `find_best_match` (claim C1) -/

theorem keyLt_irrefl (a : Bool × Nat) : keyLt a a = false := by
  rcases a with ⟨x, m⟩
  cases x <;> simp [keyLt]

theorem keyLt_trans {a b c : Bool × Nat} (h1 : keyLt a b = true)
    (h2 : keyLt b c = true) : keyLt a c = true := by
  rcases a with ⟨x, m⟩; rcases b with ⟨y, n⟩; rcases c with ⟨z, k⟩
  cases x <;> cases y <;> cases z <;> simp_all [keyLt] <;> omega

theorem keyLt_asymm {a b : Bool × Nat} (h : keyLt a b = true) :
    keyLt b a = false := by
  rcases a with ⟨x, m⟩; rcases b with ⟨y, n⟩
  cases x <;> cases y <;> simp_all [keyLt] <;> omega

theorem keyLt_neg_trans {a b c : Bool × Nat} (h1 : keyLt a b = false)
    (h2 : keyLt b c = false) : keyLt a c = false := by
  rcases a with ⟨x, m⟩; rcases b with ⟨y, n⟩; rcases c with ⟨z, k⟩
  cases x <;> cases y <;> cases z <;> simp_all [keyLt] <;> omega

/-- From `a ≤ b` (as `¬ b < a`... stated `keyLt b a = false`) and `b < c`,
conclude `a < c`. -/
theorem keyLt_of_le_of_lt {a b c : Bool × Nat} (h1 : keyLt b a = false)
    (h2 : keyLt b c = true) : keyLt a c = true := by
  rcases a with ⟨x, m⟩; rcases b with ⟨y, n⟩; rcases c with ⟨z, k⟩
  cases x <;> cases y <;> cases z <;> simp_all [keyLt] <;> omega

/-- From `a < b` and `b ≤ c` (stated `keyLt c b = false`), conclude
`a < c`. -/
theorem keyLt_of_lt_of_le {a b c : Bool × Nat} (h1 : keyLt a b = true)
    (h2 : keyLt c b = false) : keyLt a c = true := by
  rcases a with ⟨x, m⟩; rcases b with ⟨y, n⟩; rcases c with ⟨z, k⟩
  cases x <;> cases y <;> cases z <;> simp_all [keyLt] <;> omega

/-- `pickMax cur l` is the first element of `cur :: l` achieving the
maximal `(is_exact_topic, length)` key: some index `i` holds the result,
no element's key is strictly above it, and every earlier element's key is
strictly below it. -/
theorem pickMax_spec (l : List CompiledPattern) (cur : CompiledPattern) :
    ∃ i : Nat, ∃ hi : i < (cur :: l).length,
      pickMax cur l = (cur :: l).get ⟨i, hi⟩ ∧
      (∀ j (hj : j < (cur :: l).length),
        keyLt (patKey (pickMax cur l)) (patKey ((cur :: l).get ⟨j, hj⟩)) = false) ∧
      (∀ j (hj : j < (cur :: l).length), j < i →
        keyLt (patKey ((cur :: l).get ⟨j, hj⟩)) (patKey (pickMax cur l)) = true) := by
  induction l generalizing cur with
  | nil =>
      refine ⟨0, by simp, rfl, ?_, ?_⟩
      · intro j hj
        match j, hj with
        | 0, hj => exact keyLt_irrefl _
        | j + 1, hj => simp at hj
      · intro j hj hj0
        omega
  | cons x xs ih =>
      by_cases hlt : keyLt (patKey cur) (patKey x) = true
      · -- the running maximum is replaced by x
        obtain ⟨iv, hiv, h1, h2, h3⟩ := ih x
        have hres : pickMax cur (x :: xs) = pickMax x xs := by
          simp only [pickMax, if_pos hlt]
        have hx0 : keyLt (patKey (pickMax x xs)) (patKey x) = false :=
          h2 0 (by simp)
        refine ⟨iv + 1, by simp at hiv ⊢; omega, ?_, ?_, ?_⟩
        · rw [hres, h1]
          rfl
        · intro j hj
          rw [hres]
          match j, hj with
          | 0, hj =>
              show keyLt (patKey (pickMax x xs)) (patKey cur) = false
              cases hrc : keyLt (patKey (pickMax x xs)) (patKey cur) with
              | false => rfl
              | true =>
                  have hbad := keyLt_trans hrc hlt
                  rw [hx0] at hbad
                  simp at hbad
          | j + 1, hj =>
              exact h2 j (by simpa using hj)
        · intro j hj hji
          rw [hres]
          match j, hj, hji with
          | 0, hj, hji =>
              show keyLt (patKey cur) (patKey (pickMax x xs)) = true
              rcases Nat.eq_zero_or_pos iv with h0 | hpos
              · have hpx : pickMax x xs = x := by
                  rw [h1]
                  subst h0
                  rfl
                rw [hpx]
                exact hlt
              · exact keyLt_trans hlt (h3 0 (by simp) hpos)
          | j + 1, hj, hji =>
              exact h3 j (by simpa using hj) (by omega)
      · -- the running maximum stays
        obtain ⟨iv, hiv, h1, h2, h3⟩ := ih cur
        have hres : pickMax cur (x :: xs) = pickMax cur xs := by
          simp only [pickMax, if_neg hlt]
        have hc0 : keyLt (patKey (pickMax cur xs)) (patKey cur) = false :=
          h2 0 (by simp)
        have hcx : keyLt (patKey (pickMax cur xs)) (patKey x) = false :=
          keyLt_neg_trans hc0 (by simpa using hlt)
        match iv, hiv, h1, h3 with
        | 0, hiv, h1, h3 =>
            refine ⟨0, by simp, ?_, ?_, ?_⟩
            · rw [hres, h1]
              rfl
            · intro j hj
              rw [hres]
              match j, hj with
              | 0, hj => exact hc0
              | 1, hj => exact hcx
              | j + 2, hj => exact h2 (j + 1) (by simpa using hj)
            · intro j hj hj0
              omega
        | iv + 1, hiv, h1, h3 =>
            have hcr : keyLt (patKey cur) (patKey (pickMax cur xs)) = true :=
              h3 0 (by simp) (by omega)
            refine ⟨iv + 2, by simp at hiv ⊢; omega, ?_, ?_, ?_⟩
            · rw [hres, h1]
              rfl
            · intro j hj
              rw [hres]
              match j, hj with
              | 0, hj => exact hc0
              | 1, hj => exact hcx
              | j + 2, hj => exact h2 (j + 1) (by simpa using hj)
            · intro j hj hji
              rw [hres]
              match j, hj, hji with
              | 0, hj, hji => exact hcr
              | 1, hj, hji =>
                  exact keyLt_of_le_of_lt (by simpa using hlt) hcr
              | j + 2, hj, hji =>
                  exact h3 (j + 1) (by simpa using hj) (by omega)

/-- C1: for every compiled pattern set and every (title, text) that passes
the title guard and has at least one matching pattern, `find_best_match`
returns the `(topic, category)` of the matching pattern maximizing the key
`(is_exact_topic, length)`, the earliest such pattern in compile order:
some index `i` of the match list carries the returned pattern, no match's
key is strictly greater, and every earlier match's key is strictly
smaller. -/
theorem C1_find_best_match_tie_break (patterns : List CompiledPattern)
    (title text : List Char) (htitle : title ≠ [])
    (hmatch : matchedPatterns patterns title text ≠ []) :
    ∃ i : Nat, ∃ hi : i < (matchedPatterns patterns title text).length,
      find_best_match patterns title text =
        some (((matchedPatterns patterns title text).get ⟨i, hi⟩).topic,
          ((matchedPatterns patterns title text).get ⟨i, hi⟩).category) ∧
      (∀ j (hj : j < (matchedPatterns patterns title text).length),
        keyLt (patKey ((matchedPatterns patterns title text).get ⟨i, hi⟩))
          (patKey ((matchedPatterns patterns title text).get ⟨j, hj⟩)) = false) ∧
      (∀ j (hj : j < (matchedPatterns patterns title text).length), j < i →
        keyLt (patKey ((matchedPatterns patterns title text).get ⟨j, hj⟩))
          (patKey ((matchedPatterns patterns title text).get ⟨i, hi⟩)) = true) := by
  obtain ⟨m, ms, hM⟩ : ∃ m ms, matchedPatterns patterns title text = m :: ms := by
    cases h : matchedPatterns patterns title text with
    | nil => exact absurd h hmatch
    | cons m ms => exact ⟨m, ms, rfl⟩
  have hfb : find_best_match patterns title text =
      some ((pickMax m ms).topic, (pickMax m ms).category) := by
    unfold find_best_match
    rw [if_neg htitle, hM]
  rw [hM]
  obtain ⟨i, hi, h1, h2, h3⟩ := pickMax_spec ms m
  refine ⟨i, hi, ?_, ?_, ?_⟩
  · rw [hfb, h1]
  · intro j hj
    rw [← h1]
    exact h2 j hj
  · intro j hj hji
    rw [← h1]
    exact h3 j hj hji

/-- Witness for C1: the catalog with exact topic `vue` and the longer alias
`react native framework` of topic `react`, on a title containing both. -/
theorem C1_find_best_match_tie_break_witness :
    ∃ r, find_best_match (build_topic_index exactCatalog)
      "vue and react native framework".toList [] = some r := by
  obtain ⟨i, hi, h1, -, -⟩ := C1_find_best_match_tie_break
    (build_topic_index exactCatalog) "vue and react native framework".toList []
    (by decide) (by decide)
  exact ⟨_, h1⟩

/-! ### Anti-noise compilation (claim C2) -/

/-- C2: for a topic whose lower-cased canonical name is a key of
`ANTI_NOISE_RULES`, compilation emits exactly one non-exact pattern per
listed safe literal and nothing else — no bare-name pattern, no alias
pattern; consequently, with the catalog containing topic `rust`, a title
containing bare `rust` yields no match while `rustlang` matches topic
`rust`. -/
theorem C2_anti_noise_compilation (t : TopicDef) (lits : List (List Char))
    (h : ANTI_NOISE_RULES.lookup (t.topic.map Char.toLower) = some lits) :
    compileTopic t = lits.map (fun l =>
        ⟨l, t.topic.map Char.toLower, t.category, false, l.length⟩) ∧
    find_best_match (build_topic_index rustCatalog)
      "this old rust bucket".toList [] = none ∧
    find_best_match (build_topic_index rustCatalog)
      "check out this rustlang crate".toList [] =
      some ("rust".toList, "lang".toList) := by
  refine ⟨?_, by decide, by decide⟩
  simp only [compileTopic, h]

/-- Witness for C2: the topic `rust` with a configured alias `rust-lang`;
only the safe literal `rustlang` is compiled, the alias is dropped. -/
theorem C2_anti_noise_compilation_witness :
    compileTopic (TopicDef.mk "rust".toList ["rust-lang".toList] "lang".toList) =
      [CompiledPattern.mk "rustlang".toList "rust".toList "lang".toList false 8] ∧
    find_best_match (build_topic_index rustCatalog)
      "this old rust bucket".toList [] = none ∧
    find_best_match (build_topic_index rustCatalog)
      "check out this rustlang crate".toList [] =
      some ("rust".toList, "lang".toList) := by
  have h := C2_anti_noise_compilation
    (TopicDef.mk "rust".toList ["rust-lang".toList] "lang".toList)
    ["rustlang".toList] (by decide)
  exact ⟨h.1.trans (by decide), h.2.1, h.2.2⟩

/-! ### The word-boundary semantics of the compiled patterns (claim C3) -/

/-- `litHere` holds exactly when the text starts with the literal
(case-insensitively) and the character right after it, if any, is not
alphanumeric. -/
theorem litHere_iff (lit : List Char) : ∀ text, litHere lit text = true ↔
    ∃ m s, text = m ++ s ∧ m.map Char.toLower = lit ∧ boundaryOk s.head? = true := by
  induction lit with
  | nil =>
      intro text
      constructor
      · intro h
        exact ⟨[], text, rfl, rfl, h⟩
      · rintro ⟨m, s, heq, hm, hs⟩
        have hm' : m = [] := by simpa using hm
        subst hm'
        simp only [List.nil_append] at heq
        subst heq
        exact hs
  | cons p ps ih =>
      intro text
      cases text with
      | nil =>
          constructor
          · intro h
            simp [litHere] at h
          · rintro ⟨m, s, heq, hm, hs⟩
            rcases List.append_eq_nil.mp heq.symm with ⟨hm0, -⟩
            subst hm0
            simp at hm
      | cons c cs =>
          constructor
          · intro h
            simp only [litHere, Bool.and_eq_true, beq_iff_eq] at h
            obtain ⟨hc, hrest⟩ := h
            obtain ⟨m, s, heq, hm, hs⟩ := (ih cs).mp hrest
            exact ⟨c :: m, s, by rw [heq]; rfl, by simp [hc, hm], hs⟩
          · rintro ⟨m, s, heq, hm, hs⟩
            cases m with
            | nil => simp at hm
            | cons c0 m' =>
                rw [List.cons_append] at heq
                simp only [List.cons.injEq] at heq
                obtain ⟨hc0, hcs⟩ := heq
                subst hc0
                simp only [List.map_cons, List.cons.injEq] at hm
                obtain ⟨hp, hm'⟩ := hm
                simp only [litHere, Bool.and_eq_true, beq_iff_eq]
                exact ⟨hp, (ih cs).mpr ⟨m', s, hcs, hm', hs⟩⟩

theorem lastOr_spec : ∀ (p : List Char) (prev : Option Char),
    lastOr prev p = if p = [] then prev else p.getLast? := by
  intro p
  induction p with
  | nil =>
      intro prev
      simp [lastOr]
  | cons c p ih =>
      intro prev
      rw [show lastOr prev (c :: p) = lastOr (some c) p from rfl, ih (some c)]
      cases p with
      | nil => simp
      | cons d ds => simp [List.getLast?_cons_cons]

theorem lastOr_none (p : List Char) : lastOr none p = p.getLast? := by
  rw [lastOr_spec]
  split
  · subst ‹p = []›
    rfl
  · rfl

/-- What the position-by-position search recognizes: some split
`p ++ m ++ s` of the text where `m` spells the literal case-insensitively,
the character before `m` (the last of `p`, or `prev` before the whole
text) is not alphanumeric, and the character after `m` (the first of `s`)
is not alphanumeric. -/
theorem searchAux_iff (lit : List Char) : ∀ (text : List Char) (prev : Option Char),
    searchAux lit prev text = true ↔
    ∃ p m s, text = p ++ m ++ s ∧ m.map Char.toLower = lit ∧
      boundaryOk (lastOr prev p) = true ∧ boundaryOk s.head? = true := by
  intro text
  induction text with
  | nil =>
      intro prev
      constructor
      · intro h
        simp only [searchAux, Bool.and_eq_true] at h
        obtain ⟨hb, hl⟩ := h
        obtain ⟨m, s, heq, hm, hs⟩ := (litHere_iff lit []).mp hl
        rcases List.append_eq_nil.mp heq.symm with ⟨hm0, hs0⟩
        subst hm0
        subst hs0
        exact ⟨[], [], [], rfl, hm, hb, rfl⟩
      · rintro ⟨p, m, s, heq, hm, hb, hs⟩
        rcases List.append_eq_nil.mp heq.symm with ⟨hpm, hs0⟩
        rcases List.append_eq_nil.mp hpm with ⟨hp0, hm0⟩
        subst hp0
        subst hm0
        subst hs0
        simp only [searchAux, Bool.and_eq_true]
        refine ⟨hb, ?_⟩
        exact (litHere_iff lit []).mpr ⟨[], [], rfl, hm, rfl⟩
  | cons c cs ih =>
      intro prev
      constructor
      · intro h
        simp only [searchAux, Bool.or_eq_true, Bool.and_eq_true] at h
        rcases h with ⟨hb, hl⟩ | hrec
        · obtain ⟨m, s, heq, hm, hs⟩ := (litHere_iff lit (c :: cs)).mp hl
          exact ⟨[], m, s, by simpa using heq, hm, hb, hs⟩
        · obtain ⟨p, m, s, heq, hm, hb, hs⟩ := (ih (some c)).mp hrec
          exact ⟨c :: p, m, s, by rw [heq]; rfl, hm, hb, hs⟩
      · rintro ⟨p, m, s, heq, hm, hb, hs⟩
        simp only [searchAux, Bool.or_eq_true, Bool.and_eq_true]
        cases p with
        | nil =>
            left
            refine ⟨hb, ?_⟩
            exact (litHere_iff lit (c :: cs)).mpr ⟨m, s, by simpa using heq, hm, hs⟩
        | cons c0 p' =>
            right
            simp only [List.cons_append, List.cons.injEq] at heq
            obtain ⟨hc0, hcs⟩ := heq
            subst hc0
            exact (ih (some c)).mpr ⟨p', m, s, hcs, hm, hb, hs⟩

/-- C3 (amended): a compiled pattern's regex matches a text iff the text
contains some occurrence of the literal — a split `p ++ m ++ s` with `m`
equal to the literal case-insensitively — where `p` does not end in an
alphanumeric character and `s` does not begin with one. (The claim's
quantification over one fixed split fails when another occurrence of the
literal elsewhere in the same text is cleanly bounded.) -/
theorem C3_word_boundary (lit text : List Char) :
    regexSearch lit text = true ↔
    ∃ p m s, text = p ++ m ++ s ∧ m.map Char.toLower = lit ∧
      boundaryOk p.getLast? = true ∧ boundaryOk s.head? = true := by
  rw [regexSearch, searchAux_iff lit text none]
  simp only [lastOr_none]

/-- Counterexample to C3 as stated: `golang` is a compiled literal (for
topic `go`), and for the split with `p = "golang "` and `s = "s"` the
pattern does match the text `"golang golangs"` (at its first occurrence)
although the suffix `s = "s"` begins with an alphanumeric character. -/
theorem C3_word_boundary_counterexample :
    "golang".toList ∈ (build_topic_index goCatalog).map (fun p => p.pattern) ∧
    ¬ (regexSearch "golang".toList
        ("golang ".toList ++ "golang".toList ++ "s".toList) = true ↔
      (boundaryOk ("golang ".toList).getLast? = true ∧
        boundaryOk ("s".toList).head? = true)) := by
  decide

/-! ### The rotation selector (claims C4, C5, C6) -/

theorem addToGroups_ne_nil (gs : List (List Char × List TopicDef)) (t : TopicDef) :
    addToGroups gs t ≠ [] := by
  cases gs with
  | nil => simp [addToGroups]
  | cons g rest =>
      rcases g with ⟨c, ts⟩
      by_cases h : c = t.category <;> simp [addToGroups, h]

theorem foldl_addToGroups_ne_nil (ts : List TopicDef) :
    ∀ gs : List (List Char × List TopicDef), gs ≠ [] →
      ts.foldl addToGroups gs ≠ [] := by
  induction ts with
  | nil => intro gs h; simpa using h
  | cons t ts ih =>
      intro gs _
      exact ih (addToGroups gs t) (addToGroups_ne_nil gs t)

theorem groupByCategory_ne_nil (topics : List TopicDef) (h : topics ≠ []) :
    groupByCategory topics ≠ [] := by
  cases topics with
  | nil => exact absurd rfl h
  | cons t ts =>
      exact foldl_addToGroups_ne_nil ts (addToGroups [] t) (addToGroups_ne_nil [] t)

/-- Each step of the walk takes exactly its quota when every group is
large enough, so the walk's length is a closed sum. -/
theorem walkCats_length (per rem rot day : Nat) :
    ∀ (gs : List (List Char × List TopicDef)) (i : Nat),
      (∀ g ∈ gs, per + (if rem = 0 then 0 else 1) ≤ g.2.length) →
      (walkCats per rem rot day i gs).length =
        gs.length * per + (min rem (i + gs.length) - min rem i) := by
  intro gs
  induction gs with
  | nil =>
      intro i h
      simp only [walkCats, List.length_nil]
      omega
  | cons g rest ih =>
      intro i h
      rcases g with ⟨c, ts⟩
      have hts : per + (if rem = 0 then 0 else 1) ≤ ts.length :=
        h (c, ts) (by simp)
      have hrest : ∀ g ∈ rest, per + (if rem = 0 then 0 else 1) ≤ g.2.length :=
        fun g hg => h g (by simp [hg])
      have hoff : (ts.drop ((rot + day) % ts.length)
          ++ ts.take ((rot + day) % ts.length)).length = ts.length := by
        simp only [List.length_append, List.length_drop, List.length_take]
        omega
      have hextra : per + (if i < rem then 1 else 0) ≤ ts.length := by
        by_cases hr0 : rem = 0
        · rw [hr0] at hts
          rw [hr0, if_neg (Nat.not_lt_zero i)]
          simpa using hts
        · rw [if_neg hr0] at hts
          by_cases hir : i < rem
          · rwa [if_pos hir]
          · rw [if_neg hir]
            omega
      rw [show walkCats per rem rot day i ((c, ts) :: rest) =
        (ts.drop ((rot + day) % ts.length) ++ ts.take ((rot + day) % ts.length)).take
          (per + (if i < rem then 1 else 0)) ++ walkCats per rem rot day (i + 1) rest
        from rfl]
      rw [List.length_append, List.length_take, hoff, Nat.min_eq_left hextra,
        ih (i + 1) hrest, List.length_cons, Nat.succ_mul]
      by_cases hir : i < rem
      · rw [if_pos hir]
        omega
      · rw [if_neg hir]
        omega

/-- C4 (amended): `get_topics_for_run` returns exactly `min(max_topics, C)`
topics provided either the whole catalog fits the budget or every category
holds at least `per_category + 1` topics (`per_category` when the budget
divides evenly). Without that proviso a category smaller than its quota
makes the result shorter — see the counterexample. -/
theorem C4_run_size (topics : List TopicDef) (N rot : Nat) (env : Env)
    (h : topics.length ≤ N ∨
      ∀ g ∈ groupByCategory topics,
        N / (groupByCategory topics).length +
          (if N % (groupByCategory topics).length = 0 then 0 else 1) ≤ g.2.length) :
    (get_topics_for_run topics N rot env).length = min N topics.length := by
  by_cases hle : topics.length ≤ N
  · simp [get_topics_for_run, hle, Nat.min_eq_right hle]
  · have hH := h.resolve_left hle
    have hNlt : N < topics.length := by omega
    have htop : topics ≠ [] := by
      intro h0
      rw [h0] at hNlt
      simp at hNlt
    have hgs : groupByCategory topics ≠ [] := groupByCategory_ne_nil topics htop
    have hK : 0 < (groupByCategory topics).length := List.length_pos.mpr hgs
    simp only [get_topics_for_run, if_neg hle]
    set gs := groupByCategory topics with hgsdef
    set K := gs.length with hKdef
    set start := rot % K with hstart
    have hrot_len : (gs.drop start ++ gs.take start).length = K := by
      simp only [List.length_append, List.length_drop, List.length_take]
      omega
    have hrotH : ∀ g ∈ gs.drop start ++ gs.take start,
        N / K + (if N % K = 0 then 0 else 1) ≤ g.2.length := by
      intro g hg
      rcases List.mem_append.mp hg with hg' | hg'
      · exact hH g (List.drop_subset _ _ hg')
      · exact hH g (List.take_subset _ _ hg')
    have hwalk := walkCats_length (N / K) (N % K) rot env.dayOfYear
      (gs.drop start ++ gs.take start) 0 hrotH
    have hrem : N % K < K := Nat.mod_lt _ hK
    have hsum : (walkCats (N / K) (N % K) rot env.dayOfYear 0
        (gs.drop start ++ gs.take start)).length = N := by
      rw [hwalk, hrot_len]
      have := Nat.div_add_mod N K
      omega
    simp only [List.length_take, hsum]
    omega

/-- Counterexample to C4 as stated: ten topics split 1 / 9 over two
categories with budget 6 yield only 4 topics (category `a` cannot fill its
quota of 3), not `min 6 10`. -/
theorem C4_run_size_counterexample :
    ¬ ((get_topics_for_run unbalancedCatalog 6 0 ⟨0⟩).length =
      min 6 unbalancedCatalog.length) := by
  decide

/-- Witness for C4: a balanced 5 / 5 catalog of ten topics with budget 6
returns exactly 6 topics. -/
theorem C4_run_size_witness :
    (get_topics_for_run balancedCatalog 6 1 ⟨3⟩).length =
      min 6 balancedCatalog.length :=
  C4_run_size balancedCatalog 6 1 ⟨3⟩ (Or.inr (by decide))

/-- C5 (amended): `get_topics_for_run` depends on nothing beyond its
arguments, the catalog, and the day of year read from the clock: two calls
with the same arguments on the same day return identical sequences. -/
theorem C5_rotation_determinism (topics : List TopicDef) (N rot : Nat)
    (e1 e2 : Env) (h : e1.dayOfYear = e2.dayOfYear) :
    get_topics_for_run topics N rot e1 = get_topics_for_run topics N rot e2 := by
  cases e1
  cases e2
  simp only at h
  subst h
  rfl

/-- Counterexample to C5 as stated: with three topics in one category and
budget 2, the call's result changes between day 0 and day 1 with all
arguments and the catalog held fixed, so the selector is not independent
of inputs beyond its arguments. -/
theorem C5_rotation_determinism_counterexample :
    get_topics_for_run smallCatalog 2 0 ⟨0⟩ ≠ get_topics_for_run smallCatalog 2 0 ⟨1⟩ := by
  decide

/-- Witness for C5: same day, equal results. -/
theorem C5_rotation_determinism_witness :
    get_topics_for_run smallCatalog 2 0 ⟨5⟩ = get_topics_for_run smallCatalog 2 0 ⟨5⟩ :=
  C5_rotation_determinism smallCatalog 2 0 ⟨5⟩ ⟨5⟩ rfl

/-- C6: when the catalog fits the budget, `get_topics_for_run` returns it
unchanged — same topics, same order — for every rotation offset and every
day of year. -/
theorem C6_full_catalog (topics : List TopicDef) (N rot : Nat) (env : Env)
    (h : topics.length ≤ N) :
    get_topics_for_run topics N rot env = topics := by
  simp [get_topics_for_run, h]

/-- Witness for C6: three topics, budget 3, arbitrary offset and day. -/
theorem C6_full_catalog_witness :
    get_topics_for_run smallCatalog 3 7 ⟨123⟩ = smallCatalog :=
  C6_full_catalog smallCatalog 3 7 ⟨123⟩ (by decide)

/-! ### Absence properties (claim C7) -/

/-- C7: an empty title yields no match for every pattern set and every
text (text alone never triggers a match), and a catalog with zero topics
yields no match for every (title, text). -/
theorem C7_absence :
    (∀ (patterns : List CompiledPattern) (text : List Char),
      find_best_match patterns [] text = none) ∧
    (∀ title text : List Char,
      find_best_match (build_topic_index []) title text = none) := by
  constructor
  · intro patterns text
    simp [find_best_match]
  · intro title text
    by_cases h : title = [] <;>
      simp [find_best_match, matchedPatterns, build_topic_index, h]

/-! ### URL validation (claim C8) -/

/-- C8: `validate_url` accepts a URL exactly when parsing yields a scheme
of `http` or `https` (the parse raising no error) and a non-empty network
location; in particular `https://example.com/x` is valid while `ftp://x`
and `not a url` are not. -/
theorem C8_validate_url :
    (∀ url : List Char, validate_url url = true ↔
      ∃ scheme netloc, urlparseSchemeNetloc url = some (scheme, netloc) ∧
        (scheme = "http".toList ∨ scheme = "https".toList) ∧ netloc ≠ []) ∧
    validate_url "https://example.com/x".toList = true ∧
    validate_url "ftp://x".toList = false ∧
    validate_url "not a url".toList = false := by
  refine ⟨?_, by decide, by decide, by decide⟩
  intro url
  unfold validate_url
  cases h : urlparseSchemeNetloc url with
  | none => simp
  | some pr =>
      rcases pr with ⟨scheme, netloc⟩
      constructor
      · intro hv
        simp only [Bool.and_eq_true, Bool.or_eq_true, beq_iff_eq,
          Bool.not_eq_true', List.isEmpty_eq_false_iff_exists_mem] at hv
        refine ⟨scheme, netloc, rfl, hv.1, ?_⟩
        rcases hv.2 with ⟨x, hx⟩
        intro h0
        rw [h0] at hx
        simp at hx
      · rintro ⟨s', n', hsn, hs, hn⟩
        simp only [Option.some.injEq, Prod.mk.injEq] at hsn
        obtain ⟨hs', hn'⟩ := hsn
        subst hs'
        subst hn'
        simp only [Bool.and_eq_true, Bool.or_eq_true, beq_iff_eq,
          Bool.not_eq_true']
        refine ⟨hs, ?_⟩
        cases netloc with
        | nil => exact absurd rfl hn
        | cons c cs => rfl

/-! ### The event store (claims C9 and C10) -/

/-- C9: `insert_event` is total (no exception escapes) and returns `true`
exactly when a new row was appended; on a duplicate URL, a validation
failure, or a database error it returns `false` and leaves the store
unchanged. -/
theorem C9_insert_event (dbError : Bool) (ev : RawEvent) (rows : List RawEvent) :
    ((insert_event dbError ev rows).1 = true ↔
      (insert_event dbError ev rows).2 = rows ++ [ev]) ∧
    ((insert_event dbError ev rows).1 = false →
      (insert_event dbError ev rows).2 = rows) ∧
    (validate_event ev = false ∨ dbError = true ∨ urlExists rows ev.url = true →
      (insert_event dbError ev rows).1 = false) := by
  unfold insert_event
  by_cases hv : validate_event ev <;> by_cases hd : dbError <;>
    by_cases hu : urlExists rows ev.url <;>
    simp [hv, hd, hu, List.self_eq_append_right]

/-- The `executemany` rowcount never exceeds the batch size. -/
theorem bulkExec_count_le : ∀ (evs rows : List RawEvent),
    (bulkExec evs rows).2 ≤ evs.length := by
  intro evs
  induction evs with
  | nil =>
      intro rows
      simp [bulkExec]
  | cons ev evs ih =>
      intro rows
      by_cases h : urlExists rows ev.url
      · calc (bulkExec (ev :: evs) rows).2
            = (bulkExec evs rows).2 := by simp [bulkExec, h]
          _ ≤ evs.length := ih rows
          _ ≤ (ev :: evs).length := by simp
      · have : (bulkExec (ev :: evs) rows).2 = (bulkExec evs (rows ++ [ev])).2 + 1 := by
          simp [bulkExec, h]
        rw [this, List.length_cons]
        exact Nat.succ_le_succ (ih (rows ++ [ev]))

/-- C10: the counts of `insert_events_bulk` always sum to the input size —
on the all-valid path, with invalid events counted as failed, and on a
transaction failure where all validated events are counted as failed — and
the empty batch yields zero counts and an unchanged store. -/
theorem C10_bulk_counts (txError : Bool) (events rows : List RawEvent) :
    ((insert_events_bulk txError events rows).2.1
      + (insert_events_bulk txError events rows).2.2.1
      + (insert_events_bulk txError events rows).2.2.2 = events.length) ∧
    insert_events_bulk txError [] rows = (rows, 0, 0, 0) := by
  constructor
  · have hfil : (events.filter validate_event).length ≤ events.length :=
      List.length_filter_le _ _
    unfold insert_events_bulk
    by_cases he : events = []
    · subst he
      simp
    · rw [if_neg he]
      by_cases hval : events.filter validate_event = []
      · rw [if_pos hval]
        dsimp only
        simp only [hval, List.length_nil]
        omega
      · rw [if_neg hval]
        by_cases htx : txError
        · rw [if_pos htx]
          dsimp only
          omega
        · rw [if_neg htx]
          dsimp only
          have hcnt := bulkExec_count_le (events.filter validate_event) rows
          omega
  · rfl

end TrendRadar
